import Mathlib

/-!
# Note Store & Similarity Engine — verification of the core logic

Shallow embedding of the core of `src/files/note-app-deployable.tsx`:
the note data model, persistence helpers (`loadNotes`, `saveNotes`),
the tag suggester (`suggestTags`), the related-note finder
(`findRelatedNotes`), the save handler (`handleNoteSave`) and the
query filter (`filteredNotes`).

Modelling conventions:
* JS strings are Lean `String`s; the JS string primitives used by the
  code (`toLowerCase`, `split(' ')`, `includes`, `trim`, `slice`) are
  embedded as structurally recursive functions over the character list
  `s.data`, so that concrete inputs evaluate inside the kernel.
  `toLowerCase` is modelled as ASCII lowercasing (the only case the
  app's keyword tables exercise).
* `Date.now()` is modelled as an explicit clock value passed to the
  save handler; React state becomes explicit state passing.
* The localStorage blob under the app's storage key is modelled at the
  JSON-value level: `JSON.stringify` of a JS value is injective and
  `JSON.parse` inverts it, so the blob is carried as
  `Option (Option Json)` — `none` when the key is absent, `some none`
  when the stored text does not parse, `some (some j)` when it parses
  to the JSON value `j`.
-/

namespace NoteApp

/-- JS `String.prototype.toLowerCase`, ASCII fragment: lower-case every
character of the string. -/
def jsToLower (s : String) : String := ⟨s.data.map Char.toLower⟩

/-- Split a character list at every character satisfying `p`, keeping
empty fragments, as JS `split` does: the result is never empty, and
splitting the empty string yields `[[]]`. -/
def splitCharsBy (p : Char → Bool) : List Char → List (List Char)
  | [] => [[]]
  | c :: cs =>
    match splitCharsBy p cs with
    | [] => [[]]
    | w :: ws => if p c then [] :: w :: ws else (c :: w) :: ws

/-- JS `s.split(' ')`: split on the single space character, keeping
empty fragments (`"".split(' ')` is `[""]`). -/
def jsSplitOnSpace (s : String) : List String :=
  (splitCharsBy (· == ' ') s.data).map String.mk

/-- Splitting on arbitrary whitespace characters; used only to state
the spec's wording of the split, for comparison with the code's
`split(' ')`. -/
def splitOnWhitespace (s : String) : List String :=
  (splitCharsBy Char.isWhitespace s.data).map String.mk

/-- JS `s.includes(sub)`: `sub` occurs contiguously inside `s`. -/
def jsIncludes (s sub : String) : Bool :=
  decide (sub.data <:+: s.data)

/-- JS `s.trim()`: strip leading and trailing whitespace. -/
def jsTrim (s : String) : String :=
  ⟨((s.data.dropWhile Char.isWhitespace).reverse.dropWhile Char.isWhitespace).reverse⟩

/-- JS `s.slice(0, n)`: the first `n` characters of `s`. -/
def jsSlice (s : String) (n : Nat) : String := ⟨s.data.take n⟩

/-- A `{id, preview}` pair stored in a note's `related` snapshot. -/
structure RelatedPreview where
  id : Nat
  preview : String
deriving Repr, DecidableEq

/-- The sole persisted entity of the app (`newNote` literal in
`handleNoteSave`): id, raw content, ISO timestamp string, tags and the
point-in-time `related` snapshot. -/
structure Note where
  id : Nat
  content : String
  timestamp : String
  tags : List String
  related : List RelatedPreview
deriving Repr, DecidableEq

/-! ## Tag suggester (`suggestTags`, source lines 69–88) -/

/-- The fixed trigger-keyword table of `suggestTags`, in the object's
key order. -/
def keywords : List (String × List String) :=
  [("meeting", ["meetings", "work"]),
   ("task", ["tasks", "todo"]),
   ("idea", ["ideas", "creativity"]),
   ("research", ["research", "learning"]),
   ("project", ["projects", "work"])]

/-- JS `Set.prototype.add`: append an element unless already present
(JS `Set` keeps insertion order). -/
def setAdd (acc : List String) (t : String) : List String :=
  if t ∈ acc then acc else acc ++ [t]

/-- Source `suggestTags(content)`: lower-case the content; for every trigger
keyword occurring as a substring, add its tags to the set; return the
set as a list in insertion order (`Array.from`). -/
def suggestTags (content : String) : List String :=
  keywords.foldl
    (fun acc kw => if jsIncludes (jsToLower content) kw.1 then kw.2.foldl setAdd acc else acc)
    []

/-! ## Related-note finder (`findRelatedNotes`, source lines 91–106) -/

/-- Source `findRelatedNotes(content)` over the current `notes` state: keep
the notes sharing with `content` a space-separated lower-cased word
longer than 4 characters, take the first 3, and project each to its id
and a 100-character preview with an unconditional `"..."`. -/
def findRelatedNotes (content : String) (notes : List Note) : List RelatedPreview :=
  ((notes.filter fun note =>
      decide (((jsSplitOnSpace (jsToLower content)).filter fun word =>
        decide (word.length > 4)
          && (jsSplitOnSpace (jsToLower note.content)).contains word).length > 0)
    ).take 3).map fun note => ⟨note.id, jsSlice note.content 100 ++ "..."⟩

/-! ## Save handler (`handleNoteSave`, source lines 108–126) -/

/-- Source `handleNoteSave`: if the pending text trims to nothing, the state
is untouched; otherwise a new note is built with `id = Date.now()`
(the `now` argument), the suggested tags and the related snapshot
computed against the store before insertion, and prepended. -/
def handleNoteSave (currentNote : String) (now : Nat) (timestamp : String)
    (notes : List Note) : List Note :=
  if jsTrim currentNote = "" then notes
  else
    { id := now
      content := currentNote
      timestamp := timestamp
      tags := suggestTags currentNote
      related := findRelatedNotes currentNote notes } :: notes

/-- One requested save of a session: the pending text, the `Date.now()`
reading and the ISO timestamp string observed at that moment. -/
structure SaveReq where
  content : String
  now : Nat
  ts : String
deriving Repr, DecidableEq

/-- Run a session's saves in order against a starting store. -/
def runSession (reqs : List SaveReq) (notes : List Note) : List Note :=
  match reqs with
  | [] => notes
  | r :: rest => runSession rest (handleNoteSave r.content r.now r.ts notes)

/-! ## Persistence (`loadNotes` / `saveNotes`, source lines 21–37)

The blob behind the app's storage key is modelled at the JSON-value
level (see the header comment): the serialized text is carried as the
JSON value it parses to, numbers restricted to the naturals the app
produces (`Date.now()` readings and note ids). -/

/-- JSON values as `JSON.parse` produces them. -/
inductive Json where
  | null : Json
  | bool (b : Bool) : Json
  | num (n : Nat) : Json
  | str (s : String) : Json
  | arr (elems : List Json) : Json
  | obj (fields : List (String × Json)) : Json

/-- The serialized form of one `related` entry. -/
def relatedToJson (r : RelatedPreview) : Json :=
  .obj [("id", .num r.id), ("preview", .str r.preview)]

/-- The serialized form of one note, with exactly the fields the app
writes: `id`, `content`, `timestamp`, `tags`, `related`. -/
def noteToJson (n : Note) : Json :=
  .obj [("id", .num n.id),
        ("content", .str n.content),
        ("timestamp", .str n.timestamp),
        ("tags", .arr (n.tags.map Json.str)),
        ("related", .arr (n.related.map relatedToJson))]

/-- JS `JSON.stringify(notes)` at the value level: the array of the
notes' serialized forms. -/
def notesToJson (notes : List Note) : Json :=
  .arr (notes.map noteToJson)

/-- Read one `related` entry back from its JSON value. -/
def jsonToRelated : Json → Option RelatedPreview
  | .obj [("id", .num i), ("preview", .str p)] => some ⟨i, p⟩
  | _ => none

/-- Read one tag back from its JSON value. -/
def jsonToTag : Json → Option String
  | .str s => some s
  | _ => none

/-- Decode every element of a list, failing if any element fails. -/
def optionMapM (f : α → Option β) : List α → Option (List β)
  | [] => some []
  | a :: as => do
    let b ← f a
    let bs ← optionMapM f as
    some (b :: bs)

/-- Read one note back from its JSON value. -/
def jsonToNote : Json → Option Note
  | .obj [("id", .num i), ("content", .str c), ("timestamp", .str t),
          ("tags", .arr ts), ("related", .arr rs)] => do
      let tags ← optionMapM jsonToTag ts
      let related ← optionMapM jsonToRelated rs
      some ⟨i, c, t, tags, related⟩
  | _ => none

/-- Read a note sequence back from its JSON value. -/
def jsonToNotes : Json → Option (List Note)
  | .arr xs => optionMapM jsonToNote xs
  | _ => none

/-- The persisted blob: `none` when the storage key is absent,
`some none` when the stored text does not parse as JSON, and
`some (some j)` when it parses to the value `j`. -/
def Blob := Option (Option Json)

/-- Source `saveNotes(notes)`: serialize the whole sequence and overwrite the
blob. -/
def saveNotes (notes : List Note) : Blob :=
  some (some (notesToJson notes))

/-- Source `loadNotes()`: a missing key yields `[]`, a parse failure is caught
and yields `[]` (logged only), and otherwise the parsed value is
returned as-is, unvalidated. -/
def loadNotes : Blob → Json
  | none => .arr []
  | some none => .arr []
  | some (some j) => j

/-! ## Query filter (`filteredNotes`, source lines 136–145) -/

/-- Source `filteredNotes`: a note passes iff every term of
`searchQuery.toLowerCase().split(' ')` is a substring of its
lower-cased content, and `selectedTags` is empty or shares a tag with
the note. -/
def filteredNotes (notes : List Note) (searchQuery : String)
    (selectedTags : List String) : List Note :=
  notes.filter fun note =>
    ((jsSplitOnSpace (jsToLower searchQuery)).all fun term =>
        jsIncludes (jsToLower note.content) term)
    && (selectedTags.isEmpty || selectedTags.any fun tag => note.tags.contains tag)

/-! ## Specification-side statements of the filter and finder

These restate the claims' wording declaratively, to be compared with
the definitions above. -/

/-- The query filter's match criterion as the claim words it, except
with the split the code performs (on the space character): every term
of the space-split lower-cased phrase is a substring of the note's
lower-cased content, and the selected-tag set is empty or meets the
note's tags. -/
def matchesSpaceTerms (note : Note) (searchPhrase : String)
    (selectedTags : List String) : Prop :=
  (∀ term ∈ jsSplitOnSpace (jsToLower searchPhrase),
      term.data <:+: (jsToLower note.content).data)
  ∧ (selectedTags = [] ∨ ∃ t ∈ selectedTags, t ∈ note.tags)

instance (note : Note) (q : String) (tags : List String) :
    Decidable (matchesSpaceTerms note q tags) := by
  unfold matchesSpaceTerms; infer_instance

/-- The query filter exactly as the claim words it: terms come from
splitting the phrase on whitespace. -/
def claimFilterWhitespace (notes : List Note) (searchPhrase : String)
    (selectedTags : List String) : List Note :=
  notes.filter fun note =>
    decide ((∀ term ∈ splitOnWhitespace (jsToLower searchPhrase),
        term.data <:+: (jsToLower note.content).data)
      ∧ (selectedTags = [] ∨ ∃ t ∈ selectedTags, t ∈ note.tags))

/-- The related-note criterion as the claim words it, except with the
split the code performs (on the space character): some space-split
lower-cased word of the new content, longer than 4 characters, occurs
verbatim in the candidate's word list. -/
def relatedBySpaceWords (content : String) (note : Note) : Prop :=
  ∃ w ∈ jsSplitOnSpace (jsToLower content),
    w.length > 4 ∧ w ∈ jsSplitOnSpace (jsToLower note.content)

instance (content : String) (note : Note) :
    Decidable (relatedBySpaceWords content note) := by
  unfold relatedBySpaceWords; infer_instance

/-- The related-note finder exactly as the claim words it: words come
from splitting on whitespace. -/
def claimFindRelatedWhitespace (content : String) (notes : List Note) :
    List RelatedPreview :=
  ((notes.filter fun note =>
      decide (∃ w ∈ splitOnWhitespace (jsToLower content),
        w.length > 4 ∧ w ∈ splitOnWhitespace (jsToLower note.content))).take 3).map
    fun note => ⟨note.id, jsSlice note.content 100 ++ "..."⟩

/-- Every tag the keyword table can ever produce. -/
def tagVocabulary : List String :=
  ["meetings", "work", "tasks", "todo", "ideas", "creativity",
   "research", "learning", "projects"]

/-! ## Lemmas on the tag suggester's set accumulation -/

theorem mem_setAdd {acc : List String} {t x : String} :
    x ∈ setAdd acc t ↔ x ∈ acc ∨ x = t := by
  unfold setAdd
  split
  · rename_i ht
    exact ⟨Or.inl, fun h => h.elim id fun he => he ▸ ht⟩
  · simp [List.mem_append]

theorem setAdd_nodup {acc : List String} {t : String} (h : acc.Nodup) :
    (setAdd acc t).Nodup := by
  unfold setAdd
  split
  · exact h
  · rename_i ht
    simp [List.nodup_append, h, ht]

theorem mem_foldl_setAdd {l : List String} {acc : List String} {x : String} :
    x ∈ l.foldl setAdd acc ↔ x ∈ acc ∨ x ∈ l := by
  induction l generalizing acc with
  | nil => simp
  | cons a as ih =>
    simp only [List.foldl_cons, List.mem_cons, ih, mem_setAdd]
    tauto

theorem foldl_setAdd_nodup {l : List String} {acc : List String} (h : acc.Nodup) :
    (l.foldl setAdd acc).Nodup := by
  induction l generalizing acc with
  | nil => exact h
  | cons a as ih => exact ih (setAdd_nodup h)

theorem mem_keywords_foldl {kws : List (String × List String)}
    {f : String × List String → Bool} {acc : List String} {x : String} :
    x ∈ kws.foldl (fun acc kw => if f kw then kw.2.foldl setAdd acc else acc) acc
      ↔ x ∈ acc ∨ ∃ p ∈ kws, f p = true ∧ x ∈ p.2 := by
  induction kws generalizing acc with
  | nil => simp
  | cons k ks ih =>
    simp only [List.foldl_cons, List.mem_cons, ih]
    by_cases hf : f k
    · rw [if_pos hf]
      simp only [mem_foldl_setAdd]
      constructor
      · rintro ((h | h) | ⟨p, hp, hfp, hxp⟩)
        · exact Or.inl h
        · exact Or.inr ⟨k, Or.inl rfl, hf, h⟩
        · exact Or.inr ⟨p, Or.inr hp, hfp, hxp⟩
      · rintro (h | ⟨p, (rfl | hp), hfp, hxp⟩)
        · exact Or.inl (Or.inl h)
        · exact Or.inl (Or.inr hxp)
        · exact Or.inr ⟨p, hp, hfp, hxp⟩
    · rw [if_neg hf]
      constructor
      · rintro (h | ⟨p, hp, hfp, hxp⟩)
        · exact Or.inl h
        · exact Or.inr ⟨p, Or.inr hp, hfp, hxp⟩
      · rintro (h | ⟨p, (rfl | hp), hfp, hxp⟩)
        · exact Or.inl h
        · exact absurd hfp hf
        · exact Or.inr ⟨p, hp, hfp, hxp⟩

theorem keywords_foldl_nodup {kws : List (String × List String)}
    {f : String × List String → Bool} {acc : List String} (h : acc.Nodup) :
    (kws.foldl (fun acc kw => if f kw then kw.2.foldl setAdd acc else acc) acc).Nodup := by
  induction kws generalizing acc with
  | nil => exact h
  | cons k ks ih =>
    simp only [List.foldl_cons]
    exact ih (by split <;> [exact foldl_setAdd_nodup h; exact h])

/-- Claim C3. `suggestTags` lower-cases the input and returns the union
of the tag sets of exactly those trigger keywords occurring as a
substring of the content; in particular `suggestTags "Team meeting
notes"` contains `"meetings"` and `"work"`, and
`suggestTags "no keywords here"` is empty. -/
theorem suggestTags_exact (c t : String) :
    (t ∈ suggestTags c ↔ ∃ p ∈ keywords, jsIncludes (jsToLower c) p.1 = true ∧ t ∈ p.2)
    ∧ ("meetings" ∈ suggestTags "Team meeting notes"
        ∧ "work" ∈ suggestTags "Team meeting notes")
    ∧ suggestTags "no keywords here" = [] := by
  refine ⟨?_, ⟨by decide, by decide⟩, by decide⟩
  unfold suggestTags
  rw [mem_keywords_foldl]
  simp

/-- Witness for C3 at the spec's concrete examples. -/
theorem suggestTags_exact_witness :
    "meetings" ∈ suggestTags "Team meeting notes"
      ∧ suggestTags "no keywords here" = [] :=
  ⟨(suggestTags_exact "x" "y").2.1.1, (suggestTags_exact "x" "y").2.2⟩

/-- Claim C10. Every suggested tag lies in the fixed nine-tag vocabulary
and the suggestion list has no duplicates. -/
theorem suggestTags_vocabulary (c : String) :
    (suggestTags c).Nodup ∧ ∀ t ∈ suggestTags c, t ∈ tagVocabulary := by
  constructor
  · exact keywords_foldl_nodup List.nodup_nil
  · intro t ht
    unfold suggestTags at ht
    rw [mem_keywords_foldl] at ht
    rcases ht with h | ⟨p, hp, _, htp⟩
    · simp at h
    · simp only [keywords, List.mem_cons, List.not_mem_nil, or_false] at hp
      rcases hp with rfl | rfl | rfl | rfl | rfl <;>
        simp_all [tagVocabulary] <;> tauto

/-- Witness for C10 at a concrete input. -/
theorem suggestTags_vocabulary_witness :
    (suggestTags "meeting").Nodup ∧ "work" ∈ tagVocabulary :=
  ⟨(suggestTags_vocabulary "meeting").1,
   (suggestTags_vocabulary "meeting").2 "work" (by decide)⟩

/-! ## Query filter theorems -/

/-- Claim C1, counterexample. The claim splits the phrase on whitespace,
but the code splits on the space character only: on the phrase
`"a\tb"` the code keeps the single term `"a\tb"` and rejects the note
with content `"a b"`, while the claim's criterion accepts it. -/
theorem filteredNotes_whitespace_cex :
    filteredNotes [⟨1, "a b", "t", [], []⟩] "a\tb" [] = []
      ∧ claimFilterWhitespace [⟨1, "a b", "t", [], []⟩] "a\tb" []
          = [⟨1, "a b", "t", [], []⟩] :=
  ⟨by decide, by decide⟩

/-- Claim C1, amended. The query filter returns exactly the notes, in
input order (it is a sublist of the input), for which every
space-separated lower-cased term of the search phrase is a substring
of the note's lower-cased content and the selected-tag set is empty or
meets the note's tags. -/
theorem filteredNotes_exact (notes : List Note) (q : String) (tags : List String) :
    filteredNotes notes q tags
        = notes.filter (fun note => decide (matchesSpaceTerms note q tags))
      ∧ (filteredNotes notes q tags).Sublist notes := by
  constructor
  · unfold filteredNotes
    apply List.filter_congr
    intro n _
    rw [Bool.eq_iff_iff]
    simp [matchesSpaceTerms, jsIncludes, List.all_eq_true, List.any_eq_true,
      List.isEmpty_iff]
  · exact List.filter_sublist _

/-- Claim C7. Filtering with the empty phrase and no selected tags is the
identity. -/
theorem filteredNotes_identity (notes : List Note) :
    filteredNotes notes "" [] = notes := by
  unfold filteredNotes
  rw [List.filter_eq_self]
  intro n _
  simp [jsSplitOnSpace, jsToLower, splitCharsBy, jsIncludes, List.nil_infix]

/-! ## Related-note finder theorems -/

/-- Claim C2, counterexample. The claim splits on whitespace, but the code
splits on the space character only: for the content `"hello\tworld"`
the code sees the single word `"hello\tworld"`, which occurs in no
candidate, while the claim's criterion relates the candidate
containing the word `"world"`. -/
theorem findRelatedNotes_whitespace_cex :
    findRelatedNotes "hello\tworld" [⟨5, "world peace now", "t", [], []⟩] = []
      ∧ claimFindRelatedWhitespace "hello\tworld" [⟨5, "world peace now", "t", [], []⟩]
          = [⟨5, "world peace now..."⟩] :=
  ⟨by decide, by decide⟩

/-- Claim C2, amended. `findRelatedNotes` returns, in corpus order, the
first at most 3 candidates sharing with the content a space-separated
lower-cased word longer than 4 characters, and never more than 3
entries. -/
theorem findRelatedNotes_exact (content : String) (notes : List Note) :
    findRelatedNotes content notes
        = ((notes.filter fun note => decide (relatedBySpaceWords content note)).take 3).map
            (fun note => ⟨note.id, jsSlice note.content 100 ++ "..."⟩)
      ∧ (findRelatedNotes content notes).length ≤ 3 := by
  constructor
  · unfold findRelatedNotes
    congr 2
    apply List.filter_congr
    intro n _
    rw [Bool.eq_iff_iff]
    simp only [decide_eq_true_eq, relatedBySpaceWords]
    rw [gt_iff_lt, List.length_pos, ne_eq, List.filter_eq_nil_iff]
    push_neg
    simp [Bool.and_eq_true]
  · unfold findRelatedNotes
    rw [List.length_map]
    exact List.length_take_le 3 _

/-- Claim C8. Every entry of `findRelatedNotes` carries a corpus note's
id and its content truncated to 100 characters with the unconditional
`"..."` suffix; at the spec's example the 18-character content still
gets the suffix. -/
theorem findRelatedNotes_preview (content : String) (notes : List Note) :
    (∀ e ∈ findRelatedNotes content notes,
        ∃ n, n ∈ notes ∧ e.id = n.id ∧ e.preview = jsSlice n.content 100 ++ "...")
      ∧ findRelatedNotes "I love elephants" [⟨5, "elephants are huge", "t", [], []⟩]
          = [⟨5, "elephants are huge..."⟩] := by
  refine ⟨?_, by decide⟩
  intro e he
  unfold findRelatedNotes at he
  rw [List.mem_map] at he
  obtain ⟨n, hn, rfl⟩ := he
  exact ⟨n, (List.filter_sublist notes).subset ((List.take_sublist 3 _).subset hn),
    rfl, rfl⟩

/-- Witness for C8 at the spec's concrete example. -/
theorem findRelatedNotes_preview_witness :
    findRelatedNotes "I love elephants" [⟨5, "elephants are huge", "t", [], []⟩]
      = [⟨5, "elephants are huge..."⟩] :=
  (findRelatedNotes_preview "x" []).2

/-! ## Save-handler and session theorems -/

/-- Claim C9. Saving text that trims to nothing changes neither the note
collection nor what would be persisted for it. -/
theorem handleNoteSave_blank_noop (content : String) (now : Nat) (ts : String)
    (notes : List Note) (h : jsTrim content = "") :
    handleNoteSave content now ts notes = notes
      ∧ saveNotes (handleNoteSave content now ts notes) = saveNotes notes := by
  have heq : handleNoteSave content now ts notes = notes := by
    unfold handleNoteSave
    rw [if_pos h]
  exact ⟨heq, by rw [heq]⟩

/-- Witness for C9 at whitespace-only input. -/
theorem handleNoteSave_blank_noop_witness :
    handleNoteSave "   " 9 "t" [] = []
      ∧ saveNotes (handleNoteSave "   " 9 "t" []) = saveNotes [] :=
  handleNoteSave_blank_noop "   " 9 "t" [] (by decide)

/-- Claim C4, counterexample. Two saves observing the same `Date.now()`
reading produce two notes with the same id: the store's ids become
`[7, 7]`, not unique. -/
theorem runSession_duplicate_id_cex :
    ¬ ((runSession [⟨"alpha idea", 7, "t1"⟩, ⟨"beta", 7, "t2"⟩] []).map Note.id).Nodup := by
  decide

theorem runSession_ids_pairwise {reqs : List SaveReq} {notes : List Note}
    (hc : (reqs.map SaveReq.now).Pairwise (· < ·))
    (hlt : ∀ n ∈ notes, ∀ r ∈ reqs, n.id < r.now)
    (hn : (notes.map Note.id).Pairwise (· > ·)) :
    ((runSession reqs notes).map Note.id).Pairwise (· > ·) := by
  induction reqs generalizing notes with
  | nil => exact hn
  | cons r rest ih =>
    simp only [List.map_cons, List.pairwise_cons] at hc
    show ((runSession rest (handleNoteSave r.content r.now r.ts notes)).map
      Note.id).Pairwise (· > ·)
    by_cases htrim : jsTrim r.content = ""
    · rw [handleNoteSave, if_pos htrim]
      exact ih hc.2 (fun n hnn r' hr' => hlt n hnn r' (List.mem_cons_of_mem _ hr')) hn
    · rw [handleNoteSave, if_neg htrim]
      apply ih hc.2
      · intro n hnn r' hr'
        rcases List.mem_cons.mp hnn with rfl | hmem
        · exact hc.1 r'.now (List.mem_map_of_mem _ hr')
        · exact hlt n hmem r' (List.mem_cons_of_mem _ hr')
      · rw [List.map_cons, List.pairwise_cons]
        refine ⟨fun i hi => ?_, hn⟩
        obtain ⟨m, hm, rfl⟩ := List.mem_map.mp hi
        exact hlt m hm r (List.mem_cons_self _ _)

/-- Claim C4, amended. In a session starting from an empty store whose
successive saves observe strictly increasing `Date.now()` readings,
ids (taken from those readings) strictly decrease from the head of the
newest-first store — i.e. strictly increase in creation order — and in
particular no two notes share an id. -/
theorem runSession_ids_unique (reqs : List SaveReq)
    (hc : (reqs.map SaveReq.now).Pairwise (· < ·)) :
    ((runSession reqs []).map Note.id).Pairwise (· > ·)
      ∧ ((runSession reqs []).map Note.id).Nodup := by
  have h := runSession_ids_pairwise hc
    (fun n hn => absurd hn (List.not_mem_nil n)) List.Pairwise.nil
  exact ⟨h, h.imp fun hab => ne_of_gt hab⟩

/-- Witness for C4's amended theorem at a two-save session. -/
theorem runSession_ids_unique_witness :
    ((runSession [⟨"write a task", 1, "t1"⟩, ⟨"new idea", 2, "t2"⟩] []).map
        Note.id).Pairwise (· > ·)
      ∧ ((runSession [⟨"write a task", 1, "t1"⟩, ⟨"new idea", 2, "t2"⟩] []).map
        Note.id).Nodup :=
  runSession_ids_unique _ (by decide)

/-! ## Persistence theorems -/

theorem mapM_tag_roundTrip (l : List String) :
    optionMapM jsonToTag (l.map Json.str) = some l := by
  induction l with
  | nil => rfl
  | cons a as ih => simp [optionMapM, ih, jsonToTag]

theorem mapM_related_roundTrip (l : List RelatedPreview) :
    optionMapM jsonToRelated (l.map relatedToJson) = some l := by
  induction l with
  | nil => rfl
  | cons a as ih => simp [optionMapM, ih, jsonToRelated, relatedToJson]

theorem jsonToNote_noteToJson (n : Note) : jsonToNote (noteToJson n) = some n := by
  cases n with
  | mk i c t tags rel =>
    simp [noteToJson, jsonToNote, mapM_tag_roundTrip, mapM_related_roundTrip]

theorem mapM_note_roundTrip (ns : List Note) :
    optionMapM jsonToNote (ns.map noteToJson) = some ns := by
  induction ns with
  | nil => rfl
  | cons n rest ih => simp [optionMapM, ih, jsonToNote_noteToJson]

/-- Claim C5. Saving a note sequence and loading it back yields the
serialized sequence unchanged, and decoding recovers every field of
every note: the round-trip is lossless. -/
theorem load_save_roundTrip (ns : List Note) :
    loadNotes (saveNotes ns) = notesToJson ns
      ∧ jsonToNotes (loadNotes (saveNotes ns)) = some ns := by
  refine ⟨rfl, ?_⟩
  show jsonToNotes (notesToJson ns) = some ns
  unfold jsonToNotes notesToJson
  exact mapM_note_roundTrip ns

/-- Claim C6. Loading fails soft: a missing blob and an unparseable blob
both yield the empty sequence, with no error propagated (`loadNotes`
is a total function on blob states). -/
theorem loadNotes_fails_soft :
    loadNotes none = Json.arr [] ∧ loadNotes (some none) = Json.arr [] :=
  ⟨rfl, rfl⟩

end NoteApp
